import Mathlib

set_option maxRecDepth 16000

/-!
Verification development for the one-directional folder mirroring program
(`folder_sync.py`).

The embedding models the filesystem as a pair of finite trees (source and
replica).  A tree (`FS`) is a finite association list from relative paths to
file contents, together with the finite set of directory paths that exist in
the tree.  Relative paths are lists of name components; file contents are byte
lists.  The primitives `os_makedirs`, `shutil_copy2`, `os_remove`,
`path_exists` and `calculate_hash` mirror the library calls made by the
program; fallible calls return `Except Unit`.  The broad
`try/except` blocks that wrap the whole copy pass and the whole delete pass are
modelled by `copyGo` / `removeGo`, which stop at the first failing item,
append a diagnostic `Event.errorEv` (the `print` plus `logging.error` pair) and
set the phase's `errored` flag.  Injected IO faults (`Faults`) model
`shutil.copy2` or `os.remove` raising `IOError` for chosen paths.
-/

/-! ### Content fingerprinting: `calculate_hash` (folder_sync.py lines 24-42)

The file is read in 64 KiB chunks which feed an incremental hash accumulator.
The digest is modelled as the accumulated byte stream itself (the spec treats
fingerprint equality as content equality).  `calculate_hash_stream` also
models the fault surface: `openOk = false` is a failing `open`, and
`faults i = true` makes the `i`-th `read` call raise `IOError`. -/

def hashlib_update (acc chunk : List Nat) : List Nat := acc ++ chunk

def chunksF : Nat → List Nat → List (List Nat)
  | 0, _ => []
  | _ + 1, [] => []
  | fuel + 1, bs => bs.take 65536 :: chunksF fuel (bs.drop 65536)

def chunks (bs : List Nat) : List (List Nat) := chunksF bs.length bs

def hashChunksLoop (faults : Nat → Bool) : List (List Nat) → List Nat → Nat → Except Unit (List Nat)
  | [], acc, i => if faults i then Except.error () else Except.ok acc
  | ch :: rest, acc, i =>
      if faults i then Except.error ()
      else hashChunksLoop faults rest (hashlib_update acc ch) (i + 1)

def calculate_hash_stream (openOk : Bool) (bs : List Nat) (faults : Nat → Bool) :
    Except Unit (List Nat) :=
  if openOk then hashChunksLoop faults (chunks bs) [] 0 else Except.error ()

def noFault : Nat → Bool := fun _ => false

/-! ### Trees and worlds -/

abbrev RPath := List String
abbrev Content := List Nat

structure FS where
  files : List (RPath × Content)
  dirs : List RPath
deriving DecidableEq

inductive Root
  | src
  | rep
deriving DecidableEq

structure World where
  src : FS
  rep : FS
deriving DecidableEq

def World.getFS : World → Root → FS
  | w, Root.src => w.src
  | w, Root.rep => w.rep

def World.setFS : World → Root → FS → World
  | w, Root.src, fs => { w with src := fs }
  | w, Root.rep, fs => { w with rep := fs }

/-- First-match lookup in a file association list (a path names one file). -/
def lookupFile : List (RPath × Content) → RPath → Option Content
  | [], _ => none
  | e :: rest, p => if e.1 = p then some e.2 else lookupFile rest p

/-- Overwrite-or-append: the effect of writing content `c` at path `p`. -/
def updateList : List (RPath × Content) → RPath → Content → List (RPath × Content)
  | [], p, c => [(p, c)]
  | e :: rest, p, c => if e.1 = p then (p, c) :: rest else e :: updateList rest p c

/-- The effect of unlinking the file at path `p`. -/
def removeList : List (RPath × Content) → RPath → List (RPath × Content)
  | [], _ => []
  | e :: rest, p => if e.1 = p then removeList rest p else e :: removeList rest p

/-- The chain of strict ancestors of `p` below the root: `os.path.dirname`
and its ancestors (the root itself, `[]`, always exists and is excluded). -/
def properParents (p : RPath) : List RPath :=
  (List.range p.length).filterMap (fun i => if i = 0 then none else some (p.take i))

/-- Model of `os.path.exists`: true for a file or a directory at that path. -/
def path_exists (w : World) (r : Root) (p : RPath) : Bool :=
  (lookupFile (w.getFS r).files p).isSome || decide (p ∈ (w.getFS r).dirs)

/-- Model of `os.makedirs(dirname, exist_ok=True)`: creates every missing ancestor
directory of `p`; raises if some ancestor exists as a regular file. -/
def os_makedirs (w : World) (r : Root) (p : RPath) : Except Unit World :=
  let fs := w.getFS r
  if (properParents p).any (fun q => (lookupFile fs.files q).isSome) then Except.error ()
  else Except.ok (w.setFS r
    { files := fs.files
      dirs := fs.dirs ++ (properParents p).filter (fun q => decide (q ∉ fs.dirs)) })

/-- The hash `calculate_hash` applied to the entry at `(r, p)`: opening a missing path
or a directory raises, a regular file is streamed chunk by chunk. -/
def calculate_hash (w : World) (r : Root) (p : RPath) : Except Unit (List Nat) :=
  match lookupFile (w.getFS r).files p with
  | none => Except.error ()
  | some bs => calculate_hash_stream true bs noFault

/-- Model of `are_files_different` (lines 44-58): hash both sides, compare digests. -/
def are_files_different (w : World) (s r : Root × RPath) : Except Unit Bool :=
  match calculate_hash w s.1 s.2 with
  | Except.error e => Except.error e
  | Except.ok sh =>
    match calculate_hash w r.1 r.2 with
    | Except.error e => Except.error e
    | Except.ok rh => Except.ok (decide (sh ≠ rh))

/-- Injected IO faults: which destination paths make `shutil.copy2` or
`os.remove` raise `IOError`. -/
structure Faults where
  copyFault : RPath → Bool
  removeFault : RPath → Bool

def noFaults : Faults := ⟨fun _ => false, fun _ => false⟩

/-- Model of `shutil.copy2(source_path, replica_path)`: reads the source file and
overwrites (or creates) the destination file. -/
def shutil_copy2 (w : World) (s d : Root × RPath) (fault : RPath → Bool) : Except Unit World :=
  if fault d.2 then Except.error ()
  else
    match lookupFile (w.getFS s.1).files s.2 with
    | none => Except.error ()
    | some c =>
        let dfs := w.getFS d.1
        Except.ok (w.setFS d.1 { files := updateList dfs.files d.2 c, dirs := dfs.dirs })

/-- Model of `os.remove(replica_path)`: unlinks the file at the path. -/
def os_remove (w : World) (d : Root × RPath) (fault : RPath → Bool) : Except Unit World :=
  if fault d.2 then Except.error ()
  else
    match lookupFile (w.getFS d.1).files d.2 with
    | none => Except.error ()
    | some _ =>
        let dfs := w.getFS d.1
        Except.ok (w.setFS d.1 { files := removeList dfs.files d.2, dirs := dfs.dirs })

/-! ### Events and the two phases -/

inductive Event
  | copied (p : RPath)
  | deleted (p : RPath)
  | errorEv
deriving DecidableEq

/-- Number of occurrences of an event in an event log. -/
def countEv (e : Event) : List Event → Nat
  | [] => 0
  | x :: rest => (if x = e then 1 else 0) + countEv e rest

structure PhaseRes where
  world : World
  events : List Event
  errored : Bool
deriving DecidableEq

/-- Model of `os.walk` restricted to the yielded regular files, with their relative
paths; the association list order is the (deterministic) walk order. -/
def walkFiles (fs : FS) : List (RPath × Content) := fs.files

/-- The body of the loop in `copy_files` (lines 70-85) for one source file;
the file's bytes are re-read from the source tree by `shutil_copy2`. -/
def copyStep (w : World) (f : Faults) (p : RPath) : Except Unit (World × List Event) :=
  match os_makedirs w Root.rep p with
  | Except.error e => Except.error e
  | Except.ok w1 =>
    if path_exists w1 Root.rep p then
      match are_files_different w1 (Root.src, p) (Root.rep, p) with
      | Except.error e => Except.error e
      | Except.ok true =>
        match shutil_copy2 w1 (Root.src, p) (Root.rep, p) f.copyFault with
        | Except.error e => Except.error e
        | Except.ok w2 => Except.ok (w2, [Event.copied p])
      | Except.ok false => Except.ok (w1, [])
    else
      match shutil_copy2 w1 (Root.src, p) (Root.rep, p) f.copyFault with
      | Except.error e => Except.error e
      | Except.ok w2 => Except.ok (w2, [Event.copied p])

/-- The `for` loop of `copy_files` under its single broad `try/except`:
the first failing item logs an error diagnostic and ends the phase. -/
def copyGo (f : Faults) : List (RPath × Content) → World → List Event → PhaseRes
  | [], w, evs => ⟨w, evs, false⟩
  | pc :: rest, w, evs =>
    match copyStep w f pc.1 with
    | Except.error _ => ⟨w, evs ++ [Event.errorEv], true⟩
    | Except.ok (w', es) => copyGo f rest w' (evs ++ es)

/-- Model of `copy_files` (lines 60-88). -/
def copy_files (w : World) (f : Faults) : PhaseRes :=
  copyGo f (walkFiles w.src) w []

/-- The body of the loop in `remove_files` (lines 99-110) for one replica
file: the presence test is `os.path.exists` on the source-side path. -/
def removeStep (w : World) (f : Faults) (p : RPath) : Except Unit (World × List Event) :=
  if path_exists w Root.src p then Except.ok (w, [])
  else
    match os_remove w (Root.rep, p) f.removeFault with
    | Except.error e => Except.error e
    | Except.ok w' => Except.ok (w', [Event.deleted p])

/-- The `for` loop of `remove_files` under its single broad `try/except`. -/
def removeGo (f : Faults) : List RPath → World → List Event → PhaseRes
  | [], w, evs => ⟨w, evs, false⟩
  | p :: rest, w, evs =>
    match removeStep w f p with
    | Except.error _ => ⟨w, evs ++ [Event.errorEv], true⟩
    | Except.ok (w', es) => removeGo f rest w' (evs ++ es)

/-- Model of `remove_files` (lines 90-113); it walks the replica tree as it stood on
entry to the phase (only files are unlinked, so the walk snapshot is exact). -/
def remove_files (w : World) (f : Faults) : PhaseRes :=
  removeGo f ((walkFiles w.rep).map (fun e => e.1)) w []

structure SyncRes where
  world : World
  events : List Event
  copyErrored : Bool
  removeErrored : Bool
deriving DecidableEq

/-- Model of `synchronize_folders` (lines 115-133): the copy pass, then the delete
pass on the copy pass's resulting replica. -/
def synchronize_folders (w : World) (f : Faults) : SyncRes :=
  let c := copy_files w f
  let r := remove_files c.world f
  ⟨r.world, c.events ++ r.events, c.errored, r.errored⟩

/-- The scheduling loop of `main` run for `n` cycles, with the per-cycle
event logs concatenated. -/
def syncCycles (f : Faults) : Nat → World → World × List Event
  | 0, w => (w, [])
  | n + 1, w =>
    let s := synchronize_folders w f
    let t := syncCycles f n s.world
    (t.1, s.events ++ t.2)

/-! ### Startup validation in `main` (lines 144-157) -/

structure Startup where
  sourceExists : Bool
  sourceIsDir : Bool
  replicaExists : Bool
  replicaIsDir : Bool
deriving DecidableEq

structure MainRes where
  diagnostics : List String
  enteredLoop : Bool
deriving DecidableEq

/-- The pre-loop validation of `main`: `os.path.exists` on each root, a
printed diagnostic and an early return when a check fails. -/
def main_startup (s : Startup) : MainRes :=
  if s.sourceExists = false then ⟨["Source folder does not exist."], false⟩
  else if s.replicaExists = false then ⟨["Replica folder does not exist."], false⟩
  else ⟨[], true⟩

/-! ### Well-formed trees

Properties every real directory tree has: a path names at most one file, no
path is both a file and a directory, and no file lies strictly below another
file's path (`q.take p.length = p` states that `p` is a proper ancestor). -/

structure WF (fs : FS) : Prop where
  nodup : (fs.files.map (fun e => e.1)).Nodup
  notDir : ∀ pc ∈ fs.files, pc.1 ∉ fs.dirs
  noNest : ∀ pc ∈ fs.files, ∀ qc ∈ fs.files, pc.1 ≠ qc.1 → qc.1.take pc.1.length ≠ pc.1

/-! ### Concrete worlds used to evaluate the model -/

/-- Source holding one empty directory `d`; replica holding a regular file
`d`.  The shadowing configuration that blocks deletion. -/
def shadowWorld : World :=
  { src := { files := [], dirs := [["d"]] }
    rep := { files := [(["d"], [1])], dirs := [] } }

/-- Source `a ↦ [1]`, `b ↦ [2]`; empty replica. -/
def twoFileWorld : World :=
  { src := { files := [(["a"], [1]), (["b"], [2])], dirs := [] }
    rep := { files := [], dirs := [] } }

/-- Faults making the copy of `a` raise `IOError`. -/
def faultCopyA : Faults := ⟨fun p => decide (p = ["a"]), fun _ => false⟩

/-- Source `a ↦ [1]`; replica `a ↦ [1]` plus stale files `x ↦ [5]`, `y ↦ [6]`. -/
def staleWorld : World :=
  { src := { files := [(["a"], [1])], dirs := [] }
    rep := { files := [(["a"], [1]), (["x"], [5]), (["y"], [6])], dirs := [] } }

/-- Faults making the deletion of `x` raise `IOError`. -/
def faultRemoveX : Faults := ⟨fun _ => false, fun p => decide (p = ["x"])⟩

/-- Source `a ↦ [1]`, `sub/b ↦ [2]`; replica holding only a stale `old ↦ [9]`. -/
def mixedWorld : World :=
  { src := { files := [(["a"], [1]), (["sub", "b"], [2])], dirs := [["sub"]] }
    rep := { files := [(["old"], [9])], dirs := [] } }

/-! ## Lemmas about fingerprinting -/

theorem chunksF_flatten (fuel : Nat) (bs : List Nat) (h : bs.length ≤ fuel) :
    (chunksF fuel bs).flatten = bs := by
  induction fuel generalizing bs with
  | zero =>
    have hb : bs = [] := List.eq_nil_of_length_eq_zero (Nat.le_zero.mp h)
    subst hb; rfl
  | succ fuel ih =>
    cases bs with
    | nil => rfl
    | cons b rest =>
      have hlen : ((b :: rest).drop 65536).length ≤ fuel := by
        simp only [List.length_drop] at *
        simp only [List.length_cons] at h ⊢
        omega
      simp only [chunksF, List.flatten_cons, ih _ hlen, List.take_append_drop]

theorem chunks_flatten (bs : List Nat) : (chunks bs).flatten = bs :=
  chunksF_flatten bs.length bs (Nat.le_refl _)

theorem chunksF_bound (fuel : Nat) (bs : List Nat) :
    ∀ ch ∈ chunksF fuel bs, ch.length ≤ 65536 ∧ ch ≠ [] := by
  induction fuel generalizing bs with
  | zero => intro ch hch; simp [chunksF] at hch
  | succ fuel ih =>
    cases bs with
    | nil => intro ch hch; simp [chunksF] at hch
    | cons b rest =>
      intro ch hch
      simp only [chunksF, List.mem_cons] at hch
      rcases hch with hch | hch
      · subst hch
        refine ⟨?_, ?_⟩
        · rw [List.length_take]; exact min_le_left _ _
        · apply List.ne_nil_of_length_pos
          rw [List.length_take]
          exact lt_min (by decide) (Nat.succ_pos _)
      · exact ih _ ch hch

theorem hashChunksLoop_noFault (cs : List (List Nat)) :
    ∀ acc i, hashChunksLoop noFault cs acc i = Except.ok (acc ++ cs.flatten) := by
  induction cs with
  | nil => intro acc i; simp [hashChunksLoop, noFault]
  | cons ch rest ih =>
    intro acc i
    simp [hashChunksLoop, noFault, hashlib_update, ih]

theorem hashChunksLoop_error_iff (faults : Nat → Bool) (cs : List (List Nat)) :
    ∀ acc i, (hashChunksLoop faults cs acc i = Except.error () ↔
      ∃ k, k ≤ cs.length ∧ faults (i + k) = true) := by
  induction cs with
  | nil =>
    intro acc i
    by_cases h : faults i
    · simp [hashChunksLoop, h]
    · simp [hashChunksLoop, h]
  | cons ch rest ih =>
    intro acc i
    by_cases h : faults i
    · constructor
      · intro _; exact ⟨0, by omega, by simpa using h⟩
      · intro _; simp [hashChunksLoop, h]
    · simp only [hashChunksLoop, h, if_false, Bool.false_eq_true]
      rw [ih]
      constructor
      · rintro ⟨k, hk, hf⟩
        refine ⟨k + 1, by simpa using Nat.succ_le_succ hk, ?_⟩
        have : i + (k + 1) = i + 1 + k := by omega
        rw [this]; exact hf
      · rintro ⟨k, hk, hf⟩
        cases k with
        | zero => simp at hf; exact absurd hf h
        | succ k =>
          refine ⟨k, by simpa using Nat.le_of_succ_le_succ hk, ?_⟩
          have : i + 1 + k = i + (k + 1) := by omega
          rw [this]; exact hf

theorem calculate_hash_stream_ok (bs : List Nat) :
    calculate_hash_stream true bs noFault = Except.ok bs := by
  simp [calculate_hash_stream, hashChunksLoop_noFault, chunks_flatten]

/-- The digest of a regular file is its contents (the model's injective hash). -/
theorem calculate_hash_eq (w : World) (r : Root) (p : RPath) :
    calculate_hash w r p =
      (match lookupFile (w.getFS r).files p with
       | none => Except.error ()
       | some bs => Except.ok bs) := by
  unfold calculate_hash
  cases lookupFile (w.getFS r).files p with
  | none => rfl
  | some bs => simp [calculate_hash_stream_ok]

/-- C8: `calculate_hash` fails with `IOError` exactly when the file cannot be
opened or one of the performed reads fails mid-stream, and the error
propagates out of the fingerprinter (it is never swallowed); the file is read
in fixed chunks of at most 64 KiB (65536 bytes) each, never all at once, and
an undisturbed run digests exactly the file's byte stream. -/
theorem C8_hash_error_propagation (openOk : Bool) (bs : List Nat) (faults : Nat → Bool) :
    (calculate_hash_stream openOk bs faults = Except.error () ↔
      (openOk = false ∨ ∃ k, k ≤ (chunks bs).length ∧ faults k = true))
    ∧ (∀ ch ∈ chunks bs, ch.length ≤ 65536 ∧ ch ≠ [])
    ∧ calculate_hash_stream true bs noFault = Except.ok bs := by
  refine ⟨?_, fun ch hch => chunksF_bound bs.length bs ch hch, calculate_hash_stream_ok bs⟩
  cases openOk with
  | false => simp [calculate_hash_stream]
  | true =>
    simp only [calculate_hash_stream, if_true, Bool.true_eq_false, false_or]
    simpa using hashChunksLoop_error_iff faults (chunks bs) [] 0

/-- Witness for C8 at concrete inputs: a failing `open` errors, a failing
first read errors, and a clean run returns the digest of the whole stream. -/
theorem C8_hash_error_propagation_witness :
    calculate_hash_stream false [1, 2] noFault = Except.error ()
    ∧ calculate_hash_stream true [1, 2] (fun k => decide (k = 0)) = Except.error ()
    ∧ calculate_hash_stream true [1, 2] noFault = Except.ok [1, 2] :=
  ⟨(C8_hash_error_propagation false [1, 2] noFault).1.mpr (Or.inl rfl),
   (C8_hash_error_propagation true [1, 2] (fun k => decide (k = 0))).1.mpr
     (Or.inr ⟨0, Nat.zero_le _, by decide⟩),
   (C8_hash_error_propagation true [1, 2] noFault).2.2⟩

/-! ## Lemmas about the list primitives -/

theorem lookupFile_eq_none (l : List (RPath × Content)) (p : RPath) :
    lookupFile l p = none ↔ p ∉ l.map (fun e => e.1) := by
  induction l with
  | nil => simp [lookupFile]
  | cons e rest ih =>
    by_cases h : e.1 = p
    · simp [lookupFile, h]
    · simp only [lookupFile, h, if_false, List.map_cons, List.mem_cons]
      rw [ih]
      constructor
      · intro hn hor
        rcases hor with hor | hor
        · exact h hor.symm
        · exact hn hor
      · intro hn hmem
        exact hn (Or.inr hmem)

theorem lookupFile_isSome (l : List (RPath × Content)) (p : RPath) :
    (lookupFile l p).isSome = true ↔ p ∈ l.map (fun e => e.1) := by
  rw [← not_iff_not]
  simp [Option.not_isSome_iff_eq_none, lookupFile_eq_none]

theorem lookupFile_of_mem {l : List (RPath × Content)}
    (hnd : (l.map (fun e => e.1)).Nodup) {p : RPath} {c : Content} (h : (p, c) ∈ l) :
    lookupFile l p = some c := by
  induction l with
  | nil => cases h
  | cons e rest ih =>
    simp only [List.map_cons, List.nodup_cons] at hnd
    rcases List.mem_cons.mp h with he | hrest
    · rw [← he]; simp [lookupFile]
    · have hne : e.1 ≠ p := by
        intro hq
        exact hnd.1 (hq ▸ List.mem_map_of_mem (fun e => e.1) hrest)
      simp [lookupFile, hne, ih hnd.2 hrest]

theorem updateList_lookup_self (l : List (RPath × Content)) (p : RPath) (c : Content) :
    lookupFile (updateList l p c) p = some c := by
  induction l with
  | nil => simp [updateList, lookupFile]
  | cons e rest ih =>
    by_cases h : e.1 = p
    · simp [updateList, h, lookupFile]
    · simp [updateList, h, lookupFile, ih]

theorem updateList_lookup_other (l : List (RPath × Content)) (p : RPath) (c : Content)
    {q : RPath} (h : q ≠ p) :
    lookupFile (updateList l p c) q = lookupFile l q := by
  have hpq : p ≠ q := fun hq => h hq.symm
  induction l with
  | nil => simp [updateList, lookupFile, hpq]
  | cons e rest ih =>
    by_cases he : e.1 = p
    · simp [updateList, he, lookupFile, hpq]
    · by_cases heq : e.1 = q
      · simp [updateList, he, lookupFile, heq, hpq, h]
      · simp [updateList, he, lookupFile, heq, ih]

theorem updateList_mem_fst (l : List (RPath × Content)) (p : RPath) (c : Content) (q : RPath) :
    q ∈ (updateList l p c).map (fun e => e.1) ↔ q ∈ l.map (fun e => e.1) ∨ q = p := by
  induction l with
  | nil => simp [updateList]
  | cons e rest ih =>
    by_cases h : e.1 = p
    · simp [updateList, h]
      tauto
    · simp [updateList, h, ih]
      tauto

theorem updateList_nodup (l : List (RPath × Content)) (p : RPath) (c : Content)
    (h : (l.map (fun e => e.1)).Nodup) :
    ((updateList l p c).map (fun e => e.1)).Nodup := by
  induction l with
  | nil => simp [updateList]
  | cons e rest ih =>
    simp only [List.map_cons, List.nodup_cons] at h
    by_cases he : e.1 = p
    · simp only [updateList, he, if_true, List.map_cons, List.nodup_cons]
      exact ⟨he ▸ h.1, h.2⟩
    · simp only [updateList, he, if_false, List.map_cons, List.nodup_cons]
      refine ⟨?_, ih h.2⟩
      rw [updateList_mem_fst]
      rintro (hmem | heq)
      · exact h.1 hmem
      · exact he heq

theorem removeList_lookup (l : List (RPath × Content)) (p q : RPath) :
    lookupFile (removeList l p) q = if q = p then none else lookupFile l q := by
  induction l with
  | nil => simp [removeList, lookupFile]
  | cons e rest ih =>
    by_cases he : e.1 = p
    · simp only [removeList, he, if_true]
      rw [ih]
      by_cases hq : q = p
      · simp [hq]
      · have : e.1 ≠ q := by rw [he]; exact fun hx => hq hx.symm
        simp [hq, lookupFile, this]
    · by_cases heq : e.1 = q
      · have hq : ¬ (q = p) := by rw [← heq]; exact fun hx => he hx
        simp [removeList, he, lookupFile, heq, hq]
      · simp [removeList, he, lookupFile, heq, ih]

theorem removeList_sublist (l : List (RPath × Content)) (p : RPath) :
    List.Sublist ((removeList l p).map (fun e => e.1)) (l.map (fun e => e.1)) := by
  induction l with
  | nil => simp [removeList]
  | cons e rest ih =>
    by_cases he : e.1 = p
    · simp only [removeList, he, if_true, List.map_cons]
      exact ih.cons _
    · simp only [removeList, he, if_false, List.map_cons]
      exact ih.cons₂ _

theorem removeList_nodup (l : List (RPath × Content)) (p : RPath)
    (h : (l.map (fun e => e.1)).Nodup) :
    ((removeList l p).map (fun e => e.1)).Nodup :=
  h.sublist (removeList_sublist l p)

theorem countEv_append (e : Event) (l₁ l₂ : List Event) :
    countEv e (l₁ ++ l₂) = countEv e l₁ + countEv e l₂ := by
  induction l₁ with
  | nil => simp [countEv]
  | cons x rest ih => simp [countEv, ih]; omega

theorem properParents_spec {p q : RPath} (h : q ∈ properParents p) :
    q.length < p.length ∧ 0 < q.length ∧ p.take q.length = q := by
  simp only [properParents, List.mem_filterMap, List.mem_range] at h
  obtain ⟨i, hi, hq⟩ := h
  by_cases h0 : i = 0
  · simp [h0] at hq
  · simp only [h0, if_false] at hq
    injection hq with hq
    have hlen : q.length = i := by
      rw [← hq, List.length_take]
      omega
    refine ⟨by omega, by omega, by rw [hlen, hq]⟩

theorem properParents_ne {p q : RPath} (h : q ∈ properParents p) : q ≠ p := by
  intro he
  have := properParents_spec h
  rw [he] at this
  omega

/-! ## Lemmas about single filesystem operations -/

theorem calculate_hash_none {w : World} {r : Root} {p : RPath}
    (h : lookupFile (w.getFS r).files p = none) :
    calculate_hash w r p = Except.error () := by
  rw [calculate_hash_eq, h]

theorem calculate_hash_some {w : World} {r : Root} {p : RPath} {c : Content}
    (h : lookupFile (w.getFS r).files p = some c) :
    calculate_hash w r p = Except.ok c := by
  rw [calculate_hash_eq, h]

theorem os_makedirs_rep_ok {w w₁ : World} {p : RPath}
    (h : os_makedirs w Root.rep p = Except.ok w₁) :
    w₁.src = w.src ∧ w₁.rep.files = w.rep.files ∧
    (∀ q, q ∈ w₁.rep.dirs ↔ (q ∈ w.rep.dirs ∨ q ∈ properParents p)) ∧
    (∀ q ∈ properParents p, lookupFile w.rep.files q = none) := by
  simp only [os_makedirs, World.getFS] at h
  split at h
  · exact absurd h (by simp)
  · rename_i hany
    injection h with h
    subst h
    refine ⟨rfl, rfl, ?_, ?_⟩
    · intro q
      simp only [World.setFS, List.mem_append, List.mem_filter, decide_eq_true_iff]
      constructor
      · rintro (hq | ⟨hq, _⟩)
        · exact Or.inl hq
        · exact Or.inr hq
      · rintro (hq | hq)
        · exact Or.inl hq
        · by_cases hd : q ∈ w.rep.dirs
          · exact Or.inl hd
          · exact Or.inr ⟨hq, by simpa using hd⟩
    · intro q hq
      rw [Bool.not_eq_true, List.any_eq_false] at hany
      have := hany q hq
      simpa [Option.not_isSome_iff_eq_none] using this

theorem shutil_copy2_rep_ok {w w₂ : World} {p : RPath} {fd : RPath → Bool}
    (h : shutil_copy2 w (Root.src, p) (Root.rep, p) fd = Except.ok w₂) :
    ∃ c, lookupFile w.src.files p = some c ∧ fd p = false ∧
      w₂.src = w.src ∧ w₂.rep.files = updateList w.rep.files p c ∧
      w₂.rep.dirs = w.rep.dirs := by
  simp only [shutil_copy2, World.getFS] at h
  split at h
  · exact absurd h (by simp)
  · rename_i hf
    split at h
    · exact absurd h (by simp)
    · rename_i c hc
      injection h with h
      subst h
      exact ⟨c, hc, by simpa using hf, rfl, rfl, rfl⟩

theorem are_files_different_ok {w : World} {p : RPath} {b : Bool}
    (h : are_files_different w (Root.src, p) (Root.rep, p) = Except.ok b) :
    ∃ cs cr, lookupFile w.src.files p = some cs ∧ lookupFile w.rep.files p = some cr ∧
      b = decide (cs ≠ cr) := by
  cases hs : lookupFile w.src.files p with
  | none =>
    have hce : calculate_hash w Root.src p = Except.error () :=
      calculate_hash_none (by simpa [World.getFS] using hs)
    rw [are_files_different] at h
    simp only [hce] at h
    exact absurd h (by simp)
  | some cs =>
    have hcs : calculate_hash w Root.src p = Except.ok cs :=
      calculate_hash_some (by simpa [World.getFS] using hs)
    cases hr : lookupFile w.rep.files p with
    | none =>
      have hce : calculate_hash w Root.rep p = Except.error () :=
        calculate_hash_none (by simpa [World.getFS] using hr)
      rw [are_files_different] at h
      simp only [hcs, hce] at h
      exact absurd h (by simp)
    | some cr =>
      have hcr : calculate_hash w Root.rep p = Except.ok cr :=
        calculate_hash_some (by simpa [World.getFS] using hr)
      rw [are_files_different] at h
      simp only [hcs, hcr] at h
      injection h with h
      exact ⟨cs, cr, rfl, rfl, h.symm⟩


theorem copyStep_ok_cases {w w' : World} {f : Faults} {p : RPath} {es : List Event}
    (h : copyStep w f p = Except.ok (w', es)) :
    w'.src = w.src ∧
    (∀ e ∈ es, e = Event.copied p) ∧
    (∀ q, q ≠ p → lookupFile w'.rep.files q = lookupFile w.rep.files q) ∧
    (∀ q, q ∈ w'.rep.dirs ↔ (q ∈ w.rep.dirs ∨ q ∈ properParents p)) ∧
    (w'.rep.files = w.rep.files ∨ ∃ c, w'.rep.files = updateList w.rep.files p c) := by
  rw [copyStep] at h
  split at h
  · exact absurd h (by simp)
  · rename_i w₁ hm
    obtain ⟨hm1, hm2, hm3, _⟩ := os_makedirs_rep_ok hm
    split at h
    · split at h
      · exact absurd h (by simp)
      · split at h
        · exact absurd h (by simp)
        · rename_i w₂ hc
          injection h with h1
          injection h1 with hw he
          subst hw; subst he
          obtain ⟨c, _, _, hc2, hc3, hc4⟩ := shutil_copy2_rep_ok hc
          refine ⟨hc2.trans hm1, by simp, ?_, ?_, Or.inr ⟨c, by rw [hc3, hm2]⟩⟩
          · intro q hq
            rw [hc3, hm2, updateList_lookup_other _ _ _ hq]
          · intro q
            rw [hc4]
            exact hm3 q
      · injection h with h1
        injection h1 with hw he
        subst hw; subst he
        refine ⟨hm1, by simp, ?_, hm3, Or.inl hm2⟩
        intro q _
        rw [hm2]
    · split at h
      · exact absurd h (by simp)
      · rename_i w₂ hc
        injection h with h1
        injection h1 with hw he
        subst hw; subst he
        obtain ⟨c, _, _, hc2, hc3, hc4⟩ := shutil_copy2_rep_ok hc
        refine ⟨hc2.trans hm1, by simp, ?_, ?_, Or.inr ⟨c, by rw [hc3, hm2]⟩⟩
        · intro q hq
          rw [hc3, hm2, updateList_lookup_other _ _ _ hq]
        · intro q
          rw [hc4]
          exact hm3 q

theorem copyStep_ok_char {w w' : World} {f : Faults} {p : RPath} {c : Content} {es : List Event}
    (hsrc : lookupFile w.src.files p = some c)
    (h : copyStep w f p = Except.ok (w', es)) :
    w'.src = w.src ∧
    es = (if lookupFile w.rep.files p = some c then [] else [Event.copied p]) ∧
    lookupFile w'.rep.files p = some c ∧
    (∀ q ∈ properParents p, lookupFile w'.rep.files q = none) := by
  rw [copyStep] at h
  split at h
  · exact absurd h (by simp)
  · rename_i w₁ hm
    obtain ⟨hm1, hm2, _, hm4⟩ := os_makedirs_rep_ok hm
    have hsrc1 : lookupFile w₁.src.files p = some c := by rw [hm1]; exact hsrc
    split at h
    · split at h
      · exact absurd h (by simp)
      · rename_i hd
        obtain ⟨cs, cr, hds, hdr, hdb⟩ := are_files_different_ok hd
        have hcs : cs = c := by
          rw [hsrc1] at hds; injection hds with hds; exact hds.symm
        subst hcs
        have hdr0 : lookupFile w.rep.files p = some cr := by rw [← hm2]; exact hdr
        have hcne : cs ≠ cr := by
          by_contra hne
          simp [hne] at hdb
        split at h
        · exact absurd h (by simp)
        · rename_i w₂ hc
          injection h with h1
          injection h1 with hw he
          subst hw; subst he
          obtain ⟨c₂, hcl, _, hc2, hc3, _⟩ := shutil_copy2_rep_ok hc
          have hceq : c₂ = cs := by
            rw [hsrc1] at hcl; injection hcl with hcl; exact hcl.symm
          subst hceq
          refine ⟨hc2.trans hm1, ?_, ?_, ?_⟩
          · rw [hdr0, if_neg (by intro hx; injection hx with hx; exact hcne hx.symm)]
          · rw [hc3, updateList_lookup_self]
          · intro q hq
            rw [hc3, hm2, updateList_lookup_other _ _ _ (properParents_ne hq)]
            exact hm4 q hq
      · rename_i hd
        obtain ⟨cs, cr, hds, hdr, hdb⟩ := are_files_different_ok hd
        have hcs : cs = c := by
          rw [hsrc1] at hds; injection hds with hds; exact hds.symm
        subst hcs
        have hdr0 : lookupFile w.rep.files p = some cr := by rw [← hm2]; exact hdr
        have hceq : cs = cr := by
          by_contra hne
          simp [hne] at hdb
        injection h with h1
        injection h1 with hw he
        subst hw; subst he
        refine ⟨hm1, ?_, ?_, ?_⟩
        · rw [hdr0, ← hceq, if_pos rfl]
        · rw [hdr, ← hceq]
        · intro q hq
          rw [hm2]
          exact hm4 q hq
    · rename_i hex
      have hnone : lookupFile w.rep.files p = none := by
        simp only [path_exists, World.getFS, Bool.or_eq_true, not_or, decide_eq_true_iff] at hex
        rw [← hm2]
        exact Option.not_isSome_iff_eq_none.mp (by simpa using hex.1)
      split at h
      · exact absurd h (by simp)
      · rename_i w₂ hc
        injection h with h1
        injection h1 with hw he
        subst hw; subst he
        obtain ⟨c₂, hcl, _, hc2, hc3, _⟩ := shutil_copy2_rep_ok hc
        have hceq : c₂ = c := by
          rw [hsrc1] at hcl; injection hcl with hcl; exact hcl.symm
        subst hceq
        refine ⟨hc2.trans hm1, ?_, ?_, ?_⟩
        · rw [hnone, if_neg (by simp)]
        · rw [hc3, updateList_lookup_self]
        · intro q hq
          rw [hc3, hm2, updateList_lookup_other _ _ _ (properParents_ne hq)]
          exact hm4 q hq

theorem removeStep_keep {w : World} {f : Faults} {p : RPath}
    (h : path_exists w Root.src p = true) :
    removeStep w f p = Except.ok (w, []) := by
  rw [removeStep]
  simp [h]

theorem removeStep_ok_cases {w w' : World} {f : Faults} {p : RPath} {es : List Event}
    (h : removeStep w f p = Except.ok (w', es)) :
    w'.src = w.src ∧ w'.rep.dirs = w.rep.dirs ∧
    ((path_exists w Root.src p = true ∧ w' = w ∧ es = []) ∨
     (path_exists w Root.src p = false ∧ es = [Event.deleted p] ∧
      (∀ q, lookupFile w'.rep.files q = if q = p then none else lookupFile w.rep.files q) ∧
      List.Sublist (w'.rep.files.map (fun e => e.1)) (w.rep.files.map (fun e => e.1)))) := by
  rw [removeStep] at h
  split at h
  · rename_i hex
    injection h with h1
    injection h1 with hw he
    subst he
    have hw' : w' = w := hw.symm
    subst hw'
    exact ⟨rfl, rfl, Or.inl ⟨hex, rfl, rfl⟩⟩
  · rename_i hex
    rw [os_remove] at h
    split at h
    · exact absurd h (by simp)
    · rename_i w₂ hq
      injection h with h1
      injection h1 with hw he
      subst he
      have hw' : w' = w₂ := hw.symm
      subst hw'
      split at hq
      · exact absurd hq (by simp)
      · split at hq
        · exact absurd hq (by simp)
        · injection hq with hq
          subst hq
          refine ⟨rfl, rfl, Or.inr ⟨by simpa using hex, rfl, ?_, ?_⟩⟩
          · intro q
            exact removeList_lookup w.rep.files p q
          · exact removeList_sublist w.rep.files p

/-! ## Lemmas about the copy phase -/

theorem copyGo_cons_ok {f : Faults} {pc : RPath × Content} {rest : List (RPath × Content)}
    {w w' : World} {evs es : List Event} (hs : copyStep w f pc.1 = Except.ok (w', es)) :
    copyGo f (pc :: rest) w evs = copyGo f rest w' (evs ++ es) := by
  rw [copyGo, hs]

theorem copyGo_cons_err {f : Faults} {pc : RPath × Content} {rest : List (RPath × Content)}
    {w : World} {evs : List Event} {e : Unit} (hs : copyStep w f pc.1 = Except.error e) :
    copyGo f (pc :: rest) w evs = ⟨w, evs ++ [Event.errorEv], true⟩ := by
  rw [copyGo, hs]

theorem countEv_eq_zero {e : Event} {l : List Event} (h : ∀ x ∈ l, x ≠ e) :
    countEv e l = 0 := by
  induction l with
  | nil => rfl
  | cons x rest ih =>
    simp only [countEv, if_neg (h x (by simp))]
    rw [ih (fun y hy => h y (by simp [hy]))]

theorem copyGo_src (f : Faults) (l : List (RPath × Content)) :
    ∀ w evs, (copyGo f l w evs).world.src = w.src := by
  induction l with
  | nil => intro w evs; rfl
  | cons pc rest ih =>
    intro w evs
    cases hs : copyStep w f pc.1 with
    | error e => rw [copyGo_cons_err hs]
    | ok pr =>
      obtain ⟨w', es⟩ := pr
      rw [copyGo_cons_ok hs, ih]
      exact (copyStep_ok_cases hs).1

theorem copyGo_events_mem (f : Faults) (l : List (RPath × Content)) :
    ∀ w evs, ∀ e ∈ (copyGo f l w evs).events,
      e ∈ evs ∨ e = Event.errorEv ∨ ∃ q ∈ l.map (fun x => x.1), e = Event.copied q := by
  induction l with
  | nil => intro w evs e he; exact Or.inl he
  | cons pc rest ih =>
    intro w evs e he
    cases hs : copyStep w f pc.1 with
    | error e0 =>
      rw [copyGo_cons_err hs] at he
      rcases List.mem_append.mp he with h1 | h1
      · exact Or.inl h1
      · exact Or.inr (Or.inl (by simpa using h1))
    | ok pr =>
      obtain ⟨w', es⟩ := pr
      rw [copyGo_cons_ok hs] at he
      rcases ih w' (evs ++ es) e he with hin | herr | ⟨q, hq, heq⟩
      · rcases List.mem_append.mp hin with h1 | h1
        · exact Or.inl h1
        · exact Or.inr (Or.inr ⟨pc.1, by simp, (copyStep_ok_cases hs).2.1 e h1⟩)
      · exact Or.inr (Or.inl herr)
      · exact Or.inr (Or.inr ⟨q, by simp [hq], heq⟩)

theorem copyGo_count_other (f : Faults) (l : List (RPath × Content)) :
    ∀ w evs p, p ∉ l.map (fun x => x.1) →
      countEv (Event.copied p) (copyGo f l w evs).events = countEv (Event.copied p) evs := by
  induction l with
  | nil => intro w evs p _; rfl
  | cons pc rest ih =>
    intro w evs p hp
    have hp1 : p ≠ pc.1 := by intro he; exact hp (by simp [he])
    have hp2 : p ∉ rest.map (fun x => x.1) := fun hm => hp (by simp [hm])
    cases hs : copyStep w f pc.1 with
    | error e0 =>
      rw [copyGo_cons_err hs]
      show countEv _ (evs ++ [Event.errorEv]) = _
      rw [countEv_append]
      simp [countEv]
    | ok pr =>
      obtain ⟨w', es⟩ := pr
      rw [copyGo_cons_ok hs, ih w' (evs ++ es) p hp2, countEv_append]
      have : countEv (Event.copied p) es = 0 := by
        apply countEv_eq_zero
        intro x hx
        rw [(copyStep_ok_cases hs).2.1 x hx]
        intro hcon
        injection hcon with hcon
        exact hp1 hcon.symm
      rw [this]
      omega

theorem copyGo_untouched (f : Faults) (l : List (RPath × Content)) :
    ∀ w evs q, q ∉ l.map (fun x => x.1) →
      lookupFile (copyGo f l w evs).world.rep.files q = lookupFile w.rep.files q := by
  induction l with
  | nil => intro w evs q _; rfl
  | cons pc rest ih =>
    intro w evs q hq
    have hq1 : q ≠ pc.1 := by intro he; exact hq (by simp [he])
    have hq2 : q ∉ rest.map (fun x => x.1) := fun hm => hq (by simp [hm])
    cases hs : copyStep w f pc.1 with
    | error e0 => rw [copyGo_cons_err hs]
    | ok pr =>
      obtain ⟨w', es⟩ := pr
      rw [copyGo_cons_ok hs, ih w' (evs ++ es) q hq2]
      exact (copyStep_ok_cases hs).2.2.1 q hq1

theorem copyGo_dirs_mono (f : Faults) (l : List (RPath × Content)) :
    ∀ w evs q, q ∈ w.rep.dirs → q ∈ (copyGo f l w evs).world.rep.dirs := by
  induction l with
  | nil => intro w evs q hq; exact hq
  | cons pc rest ih =>
    intro w evs q hq
    cases hs : copyStep w f pc.1 with
    | error e0 => rw [copyGo_cons_err hs]; exact hq
    | ok pr =>
      obtain ⟨w', es⟩ := pr
      rw [copyGo_cons_ok hs]
      exact ih w' (evs ++ es) q (((copyStep_ok_cases hs).2.2.2.1 q).mpr (Or.inl hq))

theorem copyGo_nodup (f : Faults) (l : List (RPath × Content)) :
    ∀ w evs, (w.rep.files.map (fun e => e.1)).Nodup →
      ((copyGo f l w evs).world.rep.files.map (fun e => e.1)).Nodup := by
  induction l with
  | nil => intro w evs h; exact h
  | cons pc rest ih =>
    intro w evs h
    cases hs : copyStep w f pc.1 with
    | error e0 => rw [copyGo_cons_err hs]; exact h
    | ok pr =>
      obtain ⟨w', es⟩ := pr
      rw [copyGo_cons_ok hs]
      apply ih
      rcases (copyStep_ok_cases hs).2.2.2.2 with hsame | ⟨c, hupd⟩
      · rw [hsame]; exact h
      · rw [hupd]; exact updateList_nodup _ _ _ h

theorem copyGo_err_last (f : Faults) (l : List (RPath × Content)) :
    ∀ w evs, (copyGo f l w evs).errored = true →
      ∃ t, (copyGo f l w evs).events = t ++ [Event.errorEv] := by
  induction l with
  | nil => intro w evs h; exact absurd h (by simp [copyGo])
  | cons pc rest ih =>
    intro w evs h
    cases hs : copyStep w f pc.1 with
    | error e0 => rw [copyGo_cons_err hs]; exact ⟨evs, rfl⟩
    | ok pr =>
      obtain ⟨w', es⟩ := pr
      rw [copyGo_cons_ok hs] at h ⊢
      exact ih w' (evs ++ es) h

theorem copyGo_cons_nferr {f : Faults} {pc : RPath × Content} {rest : List (RPath × Content)}
    {w : World} {evs : List Event} (h : (copyGo f (pc :: rest) w evs).errored = false) :
    ∃ w' es, copyStep w f pc.1 = Except.ok (w', es) ∧
      (copyGo f rest w' (evs ++ es)).errored = false := by
  cases hs : copyStep w f pc.1 with
  | error e => rw [copyGo_cons_err hs] at h; exact absurd h (by simp)
  | ok pr =>
    obtain ⟨w', es⟩ := pr
    rw [copyGo_cons_ok hs] at h
    exact ⟨w', es, rfl, h⟩

theorem copyGo_ok_lookup (f : Faults) (l : List (RPath × Content)) :
    ∀ w evs, (l.map (fun x => x.1)).Nodup →
      (∀ pc ∈ l, lookupFile w.src.files pc.1 = some pc.2) →
      (copyGo f l w evs).errored = false →
      ∀ pc ∈ l, lookupFile (copyGo f l w evs).world.rep.files pc.1 = some pc.2 := by
  induction l with
  | nil => intro w evs _ _ _ pc hpc; cases hpc
  | cons pc0 rest ih =>
    intro w evs hnd hsrc herr pc hpc
    obtain ⟨w', es, hs, herr'⟩ := copyGo_cons_nferr herr
    rw [copyGo_cons_ok hs]
    simp only [List.map_cons, List.nodup_cons] at hnd
    have hchar := copyStep_ok_char (hsrc pc0 (by simp)) hs
    have hsrc' : ∀ qc ∈ rest, lookupFile w'.src.files qc.1 = some qc.2 := by
      intro qc hqc
      rw [hchar.1]
      exact hsrc qc (by simp [hqc])
    rcases List.mem_cons.mp hpc with he | hrest
    · subst he
      rw [copyGo_untouched f rest w' (evs ++ es) pc.1 hnd.1]
      exact hchar.2.2.1
    · exact ih w' (evs ++ es) hnd.2 hsrc' herr' pc hrest

theorem copyGo_ok_count (f : Faults) (l : List (RPath × Content)) :
    ∀ w evs, (l.map (fun x => x.1)).Nodup →
      (∀ pc ∈ l, lookupFile w.src.files pc.1 = some pc.2) →
      (copyGo f l w evs).errored = false →
      ∀ pc ∈ l, countEv (Event.copied pc.1) (copyGo f l w evs).events
        = countEv (Event.copied pc.1) evs
          + (if lookupFile w.rep.files pc.1 = some pc.2 then 0 else 1) := by
  induction l with
  | nil => intro w evs _ _ _ pc hpc; cases hpc
  | cons pc0 rest ih =>
    intro w evs hnd hsrc herr pc hpc
    obtain ⟨w', es, hs, herr'⟩ := copyGo_cons_nferr herr
    rw [copyGo_cons_ok hs]
    simp only [List.map_cons, List.nodup_cons] at hnd
    have hchar := copyStep_ok_char (hsrc pc0 (by simp)) hs
    have hsrc' : ∀ qc ∈ rest, lookupFile w'.src.files qc.1 = some qc.2 := by
      intro qc hqc
      rw [hchar.1]
      exact hsrc qc (by simp [hqc])
    rcases List.mem_cons.mp hpc with he | hrest
    · subst he
      rw [copyGo_count_other f rest w' (evs ++ es) pc.1 hnd.1, countEv_append, hchar.2.1]
      by_cases hcond : lookupFile w.rep.files pc.1 = some pc.2
      · simp [hcond, countEv]
      · simp [hcond, countEv]
    · have hne : pc.1 ≠ pc0.1 := by
        intro he
        exact hnd.1 (he ▸ List.mem_map_of_mem (fun x => x.1) hrest)
      have hz : countEv (Event.copied pc.1) es = 0 := by
        apply countEv_eq_zero
        intro x hx
        rw [(copyStep_ok_cases hs).2.1 x hx]
        intro hcon
        injection hcon with hcon
        exact hne hcon.symm
      have hlk : lookupFile w'.rep.files pc.1 = lookupFile w.rep.files pc.1 :=
        (copyStep_ok_cases hs).2.2.1 pc.1 hne
      rw [ih w' (evs ++ es) hnd.2 hsrc' herr' pc hrest, countEv_append, hz, hlk]
      omega

theorem copyGo_ok_parents_dirs (f : Faults) (l : List (RPath × Content)) :
    ∀ w evs, (copyGo f l w evs).errored = false →
      ∀ pc ∈ l, ∀ q ∈ properParents pc.1, q ∈ (copyGo f l w evs).world.rep.dirs := by
  induction l with
  | nil => intro w evs _ pc hpc; cases hpc
  | cons pc0 rest ih =>
    intro w evs herr pc hpc q hq
    obtain ⟨w', es, hs, herr'⟩ := copyGo_cons_nferr herr
    rw [copyGo_cons_ok hs]
    rcases List.mem_cons.mp hpc with he | hrest
    · subst he
      exact copyGo_dirs_mono f rest w' (evs ++ es) q
        (((copyStep_ok_cases hs).2.2.2.1 q).mpr (Or.inr hq))
    · exact ih w' (evs ++ es) herr' pc hrest q hq

theorem copyGo_ok_parents_nofile (f : Faults) (l : List (RPath × Content)) :
    ∀ w evs, (∀ pc ∈ l, lookupFile w.src.files pc.1 = some pc.2) →
      (∀ pc ∈ l, ∀ qc ∈ l, pc.1 ≠ qc.1 → qc.1.take pc.1.length ≠ pc.1) →
      (copyGo f l w evs).errored = false →
      ∀ pc ∈ l, ∀ q ∈ properParents pc.1,
        lookupFile (copyGo f l w evs).world.rep.files q = none := by
  induction l with
  | nil => intro w evs _ _ _ pc hpc; cases hpc
  | cons pc0 rest ih =>
    intro w evs hsrc hnn herr pc hpc q hq
    obtain ⟨w', es, hs, herr'⟩ := copyGo_cons_nferr herr
    rw [copyGo_cons_ok hs]
    have hchar := copyStep_ok_char (hsrc pc0 (by simp)) hs
    have hsrc' : ∀ qc ∈ rest, lookupFile w'.src.files qc.1 = some qc.2 := by
      intro qc hqc
      rw [hchar.1]
      exact hsrc qc (by simp [hqc])
    have hnn' : ∀ a ∈ rest, ∀ b ∈ rest, a.1 ≠ b.1 → b.1.take a.1.length ≠ a.1 :=
      fun a ha b hb => hnn a (by simp [ha]) b (by simp [hb])
    rcases List.mem_cons.mp hpc with he | hrest
    · subst he
      have hqr : q ∉ rest.map (fun x => x.1) := by
        intro hmem
        obtain ⟨qc, hqc, hq1⟩ := List.mem_map.mp hmem
        obtain ⟨hlt, hpos, htake⟩ := properParents_spec hq
        have hne : qc.1 ≠ pc.1 := by rw [hq1]; exact properParents_ne hq
        exact hnn qc (by simp [hqc]) pc (by simp) hne (by rw [hq1]; exact htake)
      rw [copyGo_untouched f rest w' (evs ++ es) q hqr]
      exact hchar.2.2.2 q hq
    · exact ih w' (evs ++ es) hsrc' hnn' herr' pc hrest q hq

theorem copyGo_noop (f : Faults) (l : List (RPath × Content)) :
    ∀ w evs, (∀ pc ∈ l, lookupFile w.src.files pc.1 = some pc.2 ∧
        lookupFile w.rep.files pc.1 = some pc.2 ∧
        (∀ q ∈ properParents pc.1, lookupFile w.rep.files q = none ∧ q ∈ w.rep.dirs)) →
      copyGo f l w evs = ⟨w, evs, false⟩ := by
  induction l with
  | nil => intro w evs _; rfl
  | cons pc0 rest ih =>
    intro w evs hall
    obtain ⟨hsrc0, hrep0, hpar0⟩ := hall pc0 (by simp)
    have hany : ((properParents pc0.1).any fun q => (lookupFile w.rep.files q).isSome) = false := by
      rw [List.any_eq_false]
      intro q hq
      rw [(hpar0 q hq).1]
      simp
    have hfil : ((properParents pc0.1).filter fun q => decide (q ∉ w.rep.dirs)) = [] := by
      rw [List.filter_eq_nil_iff]
      intro q hq
      simp [(hpar0 q hq).2]
    have hmk : os_makedirs w Root.rep pc0.1 = Except.ok w := by
      simp only [os_makedirs, World.getFS, hany, Bool.false_eq_true, if_false, hfil,
        List.append_nil]
      rfl
    have hpe : path_exists w Root.rep pc0.1 = true := by
      simp [path_exists, World.getFS, hrep0]
    have hdiff : are_files_different w (Root.src, pc0.1) (Root.rep, pc0.1) = Except.ok false := by
      have h1 : calculate_hash w Root.src pc0.1 = Except.ok pc0.2 :=
        calculate_hash_some (by simpa [World.getFS] using hsrc0)
      have h2 : calculate_hash w Root.rep pc0.1 = Except.ok pc0.2 :=
        calculate_hash_some (by simpa [World.getFS] using hrep0)
      simp [are_files_different, h1, h2]
    have hstep : copyStep w f pc0.1 = Except.ok (w, []) := by
      simp only [copyStep, hmk, hpe, if_true, hdiff]
    rw [copyGo_cons_ok hstep, List.append_nil]
    exact ih w evs (fun qc hqc => hall qc (by simp [hqc]))

/-! ## Lemmas about the delete phase -/

theorem removeGo_cons_ok {f : Faults} {p : RPath} {rest : List RPath}
    {w w' : World} {evs es : List Event} (hs : removeStep w f p = Except.ok (w', es)) :
    removeGo f (p :: rest) w evs = removeGo f rest w' (evs ++ es) := by
  rw [removeGo, hs]

theorem removeGo_cons_err {f : Faults} {p : RPath} {rest : List RPath}
    {w : World} {evs : List Event} {e : Unit} (hs : removeStep w f p = Except.error e) :
    removeGo f (p :: rest) w evs = ⟨w, evs ++ [Event.errorEv], true⟩ := by
  rw [removeGo, hs]

theorem removeGo_cons_nferr {f : Faults} {p : RPath} {rest : List RPath}
    {w : World} {evs : List Event} (h : (removeGo f (p :: rest) w evs).errored = false) :
    ∃ w' es, removeStep w f p = Except.ok (w', es) ∧
      (removeGo f rest w' (evs ++ es)).errored = false := by
  cases hs : removeStep w f p with
  | error e => rw [removeGo_cons_err hs] at h; exact absurd h (by simp)
  | ok pr =>
    obtain ⟨w', es⟩ := pr
    rw [removeGo_cons_ok hs] at h
    exact ⟨w', es, rfl, h⟩

theorem path_exists_src_congr {w w' : World} (h : w'.src = w.src) (p : RPath) :
    path_exists w' Root.src p = path_exists w Root.src p := by
  simp [path_exists, World.getFS, h]

theorem removeGo_src (f : Faults) (l : List RPath) :
    ∀ w evs, (removeGo f l w evs).world.src = w.src := by
  induction l with
  | nil => intro w evs; rfl
  | cons p rest ih =>
    intro w evs
    cases hs : removeStep w f p with
    | error e => rw [removeGo_cons_err hs]
    | ok pr =>
      obtain ⟨w', es⟩ := pr
      rw [removeGo_cons_ok hs, ih]
      exact (removeStep_ok_cases hs).1

theorem removeGo_dirs (f : Faults) (l : List RPath) :
    ∀ w evs, (removeGo f l w evs).world.rep.dirs = w.rep.dirs := by
  induction l with
  | nil => intro w evs; rfl
  | cons p rest ih =>
    intro w evs
    cases hs : removeStep w f p with
    | error e => rw [removeGo_cons_err hs]
    | ok pr =>
      obtain ⟨w', es⟩ := pr
      rw [removeGo_cons_ok hs, ih]
      exact (removeStep_ok_cases hs).2.1

theorem removeGo_keep (f : Faults) (l : List RPath) :
    ∀ w evs p, path_exists w Root.src p = true →
      lookupFile (removeGo f l w evs).world.rep.files p = lookupFile w.rep.files p := by
  induction l with
  | nil => intro w evs p _; rfl
  | cons p0 rest ih =>
    intro w evs p hp
    cases hs : removeStep w f p0 with
    | error e => rw [removeGo_cons_err hs]
    | ok pr =>
      obtain ⟨w', es⟩ := pr
      obtain ⟨h1, _, hcases⟩ := removeStep_ok_cases hs
      rw [removeGo_cons_ok hs, ih w' (evs ++ es) p (by rw [path_exists_src_congr h1]; exact hp)]
      rcases hcases with ⟨_, hww, _⟩ | ⟨hne, _, hlk, _⟩
      · rw [hww]
      · rw [hlk p, if_neg]
        intro he
        rw [he] at hp
        rw [hp] at hne
        cases hne

theorem removeGo_never_add (f : Faults) (l : List RPath) :
    ∀ w evs p, lookupFile w.rep.files p = none →
      lookupFile (removeGo f l w evs).world.rep.files p = none := by
  induction l with
  | nil => intro w evs p hp; exact hp
  | cons p0 rest ih =>
    intro w evs p hp
    cases hs : removeStep w f p0 with
    | error e => rw [removeGo_cons_err hs]; exact hp
    | ok pr =>
      obtain ⟨w', es⟩ := pr
      obtain ⟨_, _, hcases⟩ := removeStep_ok_cases hs
      rw [removeGo_cons_ok hs]
      apply ih
      rcases hcases with ⟨_, hww, _⟩ | ⟨_, _, hlk, _⟩
      · rw [hww]; exact hp
      · rw [hlk p]
        split
        · rfl
        · exact hp

theorem removeGo_untouched (f : Faults) (l : List RPath) :
    ∀ w evs p, p ∉ l →
      lookupFile (removeGo f l w evs).world.rep.files p = lookupFile w.rep.files p := by
  induction l with
  | nil => intro w evs p _; rfl
  | cons p0 rest ih =>
    intro w evs p hp
    have hp1 : p ≠ p0 := by intro he; exact hp (by simp [he])
    have hp2 : p ∉ rest := fun hm => hp (by simp [hm])
    cases hs : removeStep w f p0 with
    | error e => rw [removeGo_cons_err hs]
    | ok pr =>
      obtain ⟨w', es⟩ := pr
      obtain ⟨_, _, hcases⟩ := removeStep_ok_cases hs
      rw [removeGo_cons_ok hs, ih w' (evs ++ es) p hp2]
      rcases hcases with ⟨_, hww, _⟩ | ⟨_, _, hlk, _⟩
      · rw [hww]
      · rw [hlk p, if_neg hp1]

theorem removeGo_ok_removed (f : Faults) (l : List RPath) :
    ∀ w evs, l.Nodup → (removeGo f l w evs).errored = false →
      ∀ p ∈ l, path_exists w Root.src p = false →
        lookupFile (removeGo f l w evs).world.rep.files p = none := by
  induction l with
  | nil => intro w evs _ _ p hp; cases hp
  | cons p0 rest ih =>
    intro w evs hnd herr p hp hex
    obtain ⟨w', es, hs, herr'⟩ := removeGo_cons_nferr herr
    simp only [List.nodup_cons] at hnd
    obtain ⟨h1, _, hcases⟩ := removeStep_ok_cases hs
    rw [removeGo_cons_ok hs]
    rcases List.mem_cons.mp hp with he | hrest
    · subst he
      rcases hcases with ⟨hex', _, _⟩ | ⟨_, _, hlk, _⟩
      · rw [hex'] at hex; cases hex
      · apply removeGo_never_add
        rw [hlk p, if_pos rfl]
    · exact ih w' (evs ++ es) hnd.2 herr' p hrest
        (by rw [path_exists_src_congr h1]; exact hex)

theorem removeGo_events_mem (f : Faults) (l : List RPath) :
    ∀ w evs, ∀ e ∈ (removeGo f l w evs).events,
      e ∈ evs ∨ e = Event.errorEv ∨
        ∃ q, e = Event.deleted q ∧ q ∈ l ∧ path_exists w Root.src q = false := by
  induction l with
  | nil => intro w evs e he; exact Or.inl he
  | cons p0 rest ih =>
    intro w evs e he
    cases hs : removeStep w f p0 with
    | error e0 =>
      rw [removeGo_cons_err hs] at he
      rcases List.mem_append.mp he with h1 | h1
      · exact Or.inl h1
      · exact Or.inr (Or.inl (by simpa using h1))
    | ok pr =>
      obtain ⟨w', es⟩ := pr
      obtain ⟨h1, _, hcases⟩ := removeStep_ok_cases hs
      rw [removeGo_cons_ok hs] at he
      rcases ih w' (evs ++ es) e he with hin | herr | ⟨q, heq, hq, hex⟩
      · rcases List.mem_append.mp hin with h2 | h2
        · exact Or.inl h2
        · rcases hcases with ⟨_, _, hes⟩ | ⟨hex0, hes, _, _⟩
          · rw [hes] at h2; cases h2
          · rw [hes] at h2
            simp only [List.mem_singleton] at h2
            exact Or.inr (Or.inr ⟨p0, h2, by simp, hex0⟩)
      · exact Or.inr (Or.inl herr)
      · exact Or.inr (Or.inr ⟨q, heq, by simp [hq],
          by rw [← path_exists_src_congr h1]; exact hex⟩)

theorem removeGo_count_other (f : Faults) (l : List RPath) :
    ∀ w evs p, p ∉ l →
      countEv (Event.deleted p) (removeGo f l w evs).events
        = countEv (Event.deleted p) evs := by
  induction l with
  | nil => intro w evs p _; rfl
  | cons p0 rest ih =>
    intro w evs p hp
    have hp1 : p ≠ p0 := by intro he; exact hp (by simp [he])
    have hp2 : p ∉ rest := fun hm => hp (by simp [hm])
    cases hs : removeStep w f p0 with
    | error e0 =>
      rw [removeGo_cons_err hs]
      show countEv _ (evs ++ [Event.errorEv]) = _
      rw [countEv_append]
      simp [countEv]
    | ok pr =>
      obtain ⟨w', es⟩ := pr
      obtain ⟨_, _, hcases⟩ := removeStep_ok_cases hs
      rw [removeGo_cons_ok hs, ih w' (evs ++ es) p hp2, countEv_append]
      have hz : countEv (Event.deleted p) es = 0 := by
        rcases hcases with ⟨_, _, hes⟩ | ⟨_, hes, _, _⟩
        · rw [hes]; rfl
        · rw [hes]
          apply countEv_eq_zero
          intro x hx
          simp only [List.mem_singleton] at hx
          rw [hx]
          intro hcon
          injection hcon with hcon
          exact hp1 hcon.symm
      rw [hz]
      omega

theorem removeGo_copied_count (f : Faults) (l : List RPath) :
    ∀ w evs p, countEv (Event.copied p) (removeGo f l w evs).events
      = countEv (Event.copied p) evs := by
  induction l with
  | nil => intro w evs p; rfl
  | cons p0 rest ih =>
    intro w evs p
    cases hs : removeStep w f p0 with
    | error e0 =>
      rw [removeGo_cons_err hs]
      show countEv _ (evs ++ [Event.errorEv]) = _
      rw [countEv_append]
      simp [countEv]
    | ok pr =>
      obtain ⟨w', es⟩ := pr
      obtain ⟨_, _, hcases⟩ := removeStep_ok_cases hs
      rw [removeGo_cons_ok hs, ih w' (evs ++ es) p, countEv_append]
      have hz : countEv (Event.copied p) es = 0 := by
        rcases hcases with ⟨_, _, hes⟩ | ⟨_, hes, _, _⟩
        · rw [hes]; rfl
        · rw [hes]; simp [countEv]
      rw [hz]
      omega

theorem removeGo_ok_count (f : Faults) (l : List RPath) :
    ∀ w evs, l.Nodup → (removeGo f l w evs).errored = false →
      ∀ p ∈ l, countEv (Event.deleted p) (removeGo f l w evs).events
        = countEv (Event.deleted p) evs
          + (if path_exists w Root.src p = true then 0 else 1) := by
  induction l with
  | nil => intro w evs _ _ p hp; cases hp
  | cons p0 rest ih =>
    intro w evs hnd herr p hp
    obtain ⟨w', es, hs, herr'⟩ := removeGo_cons_nferr herr
    simp only [List.nodup_cons] at hnd
    obtain ⟨h1, _, hcases⟩ := removeStep_ok_cases hs
    rw [removeGo_cons_ok hs]
    rcases List.mem_cons.mp hp with he | hrest
    · subst he
      rw [removeGo_count_other f rest w' (evs ++ es) p hnd.1, countEv_append]
      rcases hcases with ⟨hex, _, hes⟩ | ⟨hex, hes, _, _⟩
      · rw [hes, hex, if_pos rfl]
        simp [countEv]
      · rw [hes, hex]
        simp [countEv]
    · have hne : p ≠ p0 := by
        intro he
        rw [he] at hrest
        exact hnd.1 hrest
      have hz : countEv (Event.deleted p) es = 0 := by
        rcases hcases with ⟨_, _, hes⟩ | ⟨_, hes, _, _⟩
        · rw [hes]; rfl
        · rw [hes]
          apply countEv_eq_zero
          intro x hx
          simp only [List.mem_singleton] at hx
          rw [hx]
          intro hcon
          injection hcon with hcon
          exact hne hcon.symm
      rw [ih w' (evs ++ es) hnd.2 herr' p hrest, countEv_append, hz,
        path_exists_src_congr h1]
      omega

theorem removeGo_err_last (f : Faults) (l : List RPath) :
    ∀ w evs, (removeGo f l w evs).errored = true →
      ∃ t, (removeGo f l w evs).events = t ++ [Event.errorEv] := by
  induction l with
  | nil => intro w evs h; exact absurd h (by simp [removeGo])
  | cons p0 rest ih =>
    intro w evs h
    cases hs : removeStep w f p0 with
    | error e0 => rw [removeGo_cons_err hs]; exact ⟨evs, rfl⟩
    | ok pr =>
      obtain ⟨w', es⟩ := pr
      rw [removeGo_cons_ok hs] at h ⊢
      exact ih w' (evs ++ es) h

theorem removeGo_noop (f : Faults) (l : List RPath) :
    ∀ w evs, (∀ p ∈ l, path_exists w Root.src p = true) →
      removeGo f l w evs = ⟨w, evs, false⟩ := by
  induction l with
  | nil => intro w evs _; rfl
  | cons p0 rest ih =>
    intro w evs hall
    have hs : removeStep w f p0 = Except.ok (w, []) := removeStep_keep (hall p0 (by simp))
    rw [removeGo_cons_ok hs, List.append_nil]
    exact ih w evs (fun q hq => hall q (by simp [hq]))

/-! ## Remaining bridging lemmas -/

theorem lookupFile_mem {l : List (RPath × Content)} {p : RPath} {c : Content}
    (h : lookupFile l p = some c) : (p, c) ∈ l := by
  induction l with
  | nil => cases h
  | cons e rest ih =>
    rw [lookupFile] at h
    split at h
    · rename_i he
      injection h with h
      obtain ⟨a, b⟩ := e
      have ha : a = p := he
      have hb : b = c := h
      subst ha; subst hb
      exact List.mem_cons_self _ _
    · exact List.mem_cons_of_mem _ (ih h)

theorem copyGo_isSome_mono (f : Faults) (l : List (RPath × Content)) :
    ∀ w evs p, (lookupFile w.rep.files p).isSome = true →
      (lookupFile (copyGo f l w evs).world.rep.files p).isSome = true := by
  induction l with
  | nil => intro w evs p hp; exact hp
  | cons pc rest ih =>
    intro w evs p hp
    cases hs : copyStep w f pc.1 with
    | error e => rw [copyGo_cons_err hs]; exact hp
    | ok pr =>
      obtain ⟨w', es⟩ := pr
      rw [copyGo_cons_ok hs]
      apply ih
      by_cases hq : p = pc.1
      · subst hq
        rcases (copyStep_ok_cases hs).2.2.2.2 with hsame | ⟨c, hupd⟩
        · rw [hsame]; exact hp
        · rw [hupd, updateList_lookup_self]; rfl
      · rw [(copyStep_ok_cases hs).2.2.1 p hq]
        exact hp

/-! ## The claims -/

/-- C6: the source tree is never mutated: after any number of cycles, with any
injected faults, the source component of the world is unchanged (every write,
creation or removal in the embedding targets the replica root only). -/
theorem C6_source_never_mutated (f : Faults) (n : Nat) (w : World) :
    (syncCycles f n w).1.src = w.src := by
  induction n generalizing w with
  | zero => rfl
  | succ n ih =>
    have hstep : (syncCycles f (n + 1) w).1 = (syncCycles f n (synchronize_folders w f).world).1 :=
      rfl
    rw [hstep, ih]
    show (removeGo f _ _ _).world.src = w.src
    rw [removeGo_src]
    exact copyGo_src f _ w []

/-- C7: copy-before-delete ordering: within one cycle's event log, every
`Copied` event occurs at an earlier position than every `Deleted` event (the
copy phase over the source tree completes before the delete phase begins). -/
theorem C7_copy_before_delete (w : World) (f : Faults) (i j : Nat) (p q : RPath)
    (hi : (synchronize_folders w f).events.get? i = some (Event.copied p))
    (hj : (synchronize_folders w f).events.get? j = some (Event.deleted q)) :
    i < j := by
  have hev : (synchronize_folders w f).events
      = (copy_files w f).events ++ (remove_files (copy_files w f).world f).events := rfl
  have hiL : i < (copy_files w f).events.length := by
    by_contra hge
    push_neg at hge
    rw [hev, List.get?_append_right hge] at hi
    have hm : Event.copied p ∈ (remove_files (copy_files w f).world f).events :=
      List.get?_mem hi
    rcases removeGo_events_mem f _ _ [] _ hm with h | h | ⟨q', hq', _, _⟩
    · cases h
    · cases h
    · cases hq'
  have hjL : (copy_files w f).events.length ≤ j := by
    by_contra hlt
    push_neg at hlt
    rw [hev, List.get?_append hlt] at hj
    have hm : Event.deleted q ∈ (copy_files w f).events := List.get?_mem hj
    rcases copyGo_events_mem f _ w [] _ hm with h | h | ⟨q', _, hq'⟩
    · cases h
    · cases h
    · cases hq'
  omega

/-- Witness for C7: in a cycle with both copies and a deletion, a `Copied`
event at position 0 precedes the `Deleted` event at position 2. -/
theorem C7_copy_before_delete_witness :
    (synchronize_folders mixedWorld noFaults).events.get? 0 = some (Event.copied ["a"])
    ∧ (synchronize_folders mixedWorld noFaults).events.get? 2 = some (Event.deleted ["old"])
    ∧ 0 < 2 :=
  ⟨by decide, by decide,
   C7_copy_before_delete mixedWorld noFaults 0 2 ["a"] ["old"] (by decide) (by decide)⟩

/-- C10: a replica file whose relative path names a directory (not a file) in
the source tree is never deleted: the presence test is `os.path.exists`, which
a directory satisfies, so the file keeps its content and no `Deleted` event is
ever emitted for it, over any number of cycles and any faults. -/
theorem C10_source_dir_shadows_replica_file (f : Faults) (p : RPath) (c : Content) :
    ∀ n w, p ∈ w.src.dirs → p ∉ w.src.files.map (fun e => e.1) →
      lookupFile w.rep.files p = some c →
      lookupFile (syncCycles f n w).1.rep.files p = some c
      ∧ Event.deleted p ∉ (syncCycles f n w).2 := by
  intro n
  induction n with
  | zero =>
    intro w _ _ h3
    exact ⟨h3, by simp [syncCycles]⟩
  | succ n ih =>
    intro w hdir hnotfile hrep
    have hcopy : lookupFile (copy_files w f).world.rep.files p = some c :=
      (copyGo_untouched f (walkFiles w.src) w [] p hnotfile).trans hrep
    have hsrcc : (copy_files w f).world.src = w.src := copyGo_src f _ w []
    have hex : path_exists (copy_files w f).world Root.src p = true := by
      rw [path_exists_src_congr hsrcc]
      simp [path_exists, World.getFS, hdir]
    have hrem : lookupFile (remove_files (copy_files w f).world f).world.rep.files p = some c :=
      (removeGo_keep f _ (copy_files w f).world [] p hex).trans hcopy
    have hnodel : Event.deleted p ∉ (synchronize_folders w f).events := by
      intro hmem
      rcases List.mem_append.mp hmem with h1 | h1
      · rcases copyGo_events_mem f _ w [] _ h1 with h | h | ⟨q, _, hq⟩
        · cases h
        · cases h
        · cases hq
      · rcases removeGo_events_mem f _ _ [] _ h1 with h | h | ⟨q, hq, _, hqex⟩
        · cases h
        · cases h
        · injection hq with hq2
          rw [← hq2] at hqex
          rw [hex] at hqex
          cases hqex
    have hsrc' : (synchronize_folders w f).world.src = w.src := by
      show (removeGo f _ _ _).world.src = w.src
      rw [removeGo_src]
      exact copyGo_src f _ w []
    obtain ⟨ih1, ih2⟩ := ih (synchronize_folders w f).world
      (by rw [hsrc']; exact hdir) (by rw [hsrc']; exact hnotfile) hrem
    refine ⟨ih1, ?_⟩
    intro hmem
    rcases List.mem_append.mp
        (show Event.deleted p
            ∈ (synchronize_folders w f).events ++ (syncCycles f n (synchronize_folders w f).world).2
          from hmem) with h1 | h1
    · exact hnodel h1
    · exact ih2 h1

/-- Witness for C10: source holds an empty directory `d`, replica a file `d`;
after two cycles the file is intact and no deletion event was emitted. -/
theorem C10_source_dir_shadows_replica_file_witness :
    lookupFile (syncCycles noFaults 2 shadowWorld).1.rep.files ["d"] = some [1]
    ∧ Event.deleted ["d"] ∉ (syncCycles noFaults 2 shadowWorld).2 :=
  C10_source_dir_shadows_replica_file noFaults ["d"] [1] 2 shadowWorld
    (by decide) (by decide) (by decide)

/-- C3: in an error-free copy phase over well-formed trees, each source file
`(p, c)` is copied exactly when no identical-content file already sits at `p`
in the replica (no file there, or a file with a different digest): the cycle
emits exactly one `Copied p` event in that case and zero events otherwise,
and afterwards the replica holds `c` at `p`. -/
theorem C3_copy_condition (w : World) (f : Faults)
    (hWFs : WF w.src)
    (herr : (copy_files w f).errored = false)
    (p : RPath) (c : Content) (hmem : (p, c) ∈ w.src.files) :
    countEv (Event.copied p) (synchronize_folders w f).events
      = (if lookupFile w.rep.files p = some c then 0 else 1)
    ∧ lookupFile (copy_files w f).world.rep.files p = some c := by
  have hsrcAll : ∀ pc ∈ walkFiles w.src, lookupFile w.src.files pc.1 = some pc.2 :=
    fun pc hpc => lookupFile_of_mem hWFs.nodup hpc
  have hnd : ((walkFiles w.src).map (fun x => x.1)).Nodup := hWFs.nodup
  have hcount := copyGo_ok_count f (walkFiles w.src) w [] hnd hsrcAll herr (p, c) hmem
  have hlk := copyGo_ok_lookup f (walkFiles w.src) w [] hnd hsrcAll herr (p, c) hmem
  refine ⟨?_, hlk⟩
  have hev : (synchronize_folders w f).events
      = (copy_files w f).events ++ (remove_files (copy_files w f).world f).events := rfl
  have h0 : countEv (Event.copied p) (remove_files (copy_files w f).world f).events = 0 :=
    removeGo_copied_count f _ _ [] p
  have hcc : countEv (Event.copied p) (copy_files w f).events
      = 0 + (if lookupFile w.rep.files p = some c then 0 else 1) := hcount
  rw [hev, countEv_append, h0, hcc]
  omega

/-- Witness for C3: in the mixed scenario the absent file `a` is copied with
exactly one event and lands with its source content. -/
theorem C3_copy_condition_witness :
    countEv (Event.copied ["a"]) (synchronize_folders mixedWorld noFaults).events
      = (if lookupFile mixedWorld.rep.files ["a"] = some [1] then 0 else 1)
    ∧ lookupFile (copy_files mixedWorld noFaults).world.rep.files ["a"] = some [1] :=
  C3_copy_condition mixedWorld noFaults ⟨by decide, by decide, by decide⟩
    (by decide) ["a"] [1] (by decide)

/-- C4 counterexample: in `shadowWorld` the replica file `d` has no source
*file* counterpart (the source entry `d` is a directory), the cycle runs with
no error, yet the file is not removed and no `Deleted` event is emitted — the
claim's presence test is path existence, not file existence. -/
theorem C4_counterexample :
    (synchronize_folders shadowWorld noFaults).copyErrored = false
    ∧ (synchronize_folders shadowWorld noFaults).removeErrored = false
    ∧ lookupFile shadowWorld.rep.files ["d"] = some [1]
    ∧ lookupFile shadowWorld.src.files ["d"] = none
    ∧ countEv (Event.deleted ["d"]) (synchronize_folders shadowWorld noFaults).events = 0
    ∧ lookupFile (synchronize_folders shadowWorld noFaults).world.rep.files ["d"] = some [1] := by
  decide

/-- C4 amended: for every file of the replica tree, an error-free cycle
removes it and emits exactly one `Deleted` event exactly when no *entry* (file
or directory) exists at its relative path under the source root; a replica
file whose path does have a source entry (in particular a source file)
survives the cycle and triggers no `Deleted` event. -/
theorem C4_deletion_condition (w : World) (f : Faults)
    (hWFr : WF w.rep)
    (_herrC : (copy_files w f).errored = false)
    (herrR : (remove_files (copy_files w f).world f).errored = false)
    (p : RPath) (hp : p ∈ w.rep.files.map (fun e => e.1)) :
    countEv (Event.deleted p) (synchronize_folders w f).events
      = (if path_exists w Root.src p = true then 0 else 1)
    ∧ (path_exists w Root.src p = false →
        lookupFile (synchronize_folders w f).world.rep.files p = none)
    ∧ (path_exists w Root.src p = true →
        ∃ c, lookupFile (synchronize_folders w f).world.rep.files p = some c) := by
  have hsrcc : (copy_files w f).world.src = w.src := copyGo_src f _ w []
  have hin : p ∈ (copy_files w f).world.rep.files.map (fun e => e.1) := by
    rw [← lookupFile_isSome]
    exact copyGo_isSome_mono f _ w [] p ((lookupFile_isSome _ _).mpr hp)
  have hndrep : ((copy_files w f).world.rep.files.map (fun e => e.1)).Nodup :=
    copyGo_nodup f _ w [] hWFr.nodup
  refine ⟨?_, ?_, ?_⟩
  · have hev : (synchronize_folders w f).events
        = (copy_files w f).events ++ (remove_files (copy_files w f).world f).events := rfl
    have h0 : countEv (Event.deleted p) (copy_files w f).events = 0 := by
      apply countEv_eq_zero
      intro x hx
      rcases copyGo_events_mem f _ w [] x hx with h | h | ⟨q, _, hq⟩
      · cases h
      · rw [h]; intro hcon; cases hcon
      · rw [hq]; intro hcon; cases hcon
    have hcnt : countEv (Event.deleted p) (remove_files (copy_files w f).world f).events
        = 0 + (if path_exists (copy_files w f).world Root.src p = true then 0 else 1) :=
      removeGo_ok_count f _ (copy_files w f).world [] hndrep herrR p hin
    rw [hev, countEv_append, h0, hcnt, path_exists_src_congr hsrcc]
    omega
  · intro hex
    have hex' : path_exists (copy_files w f).world Root.src p = false := by
      rw [path_exists_src_congr hsrcc]
      exact hex
    exact removeGo_ok_removed f _ (copy_files w f).world [] hndrep herrR p hin hex'
  · intro hex
    have hex' : path_exists (copy_files w f).world Root.src p = true := by
      rw [path_exists_src_congr hsrcc]
      exact hex
    obtain ⟨c, hc⟩ := Option.isSome_iff_exists.mp (copyGo_isSome_mono f _ w [] p
      ((lookupFile_isSome _ _).mpr hp))
    refine ⟨c, ?_⟩
    have hk := removeGo_keep f
      ((copy_files w f).world.rep.files.map (fun e : RPath × Content => e.1))
      (copy_files w f).world [] p hex'
    exact hk.trans hc

/-- Witness for C4 (amended): the stale file `x` has no source entry and is
removed with exactly one `Deleted` event; `a` has a source file and survives. -/
theorem C4_deletion_condition_witness :
    (countEv (Event.deleted ["x"]) (synchronize_folders staleWorld noFaults).events
      = (if path_exists staleWorld Root.src ["x"] = true then 0 else 1))
    ∧ (path_exists staleWorld Root.src ["a"] = true →
        ∃ c, lookupFile (synchronize_folders staleWorld noFaults).world.rep.files ["a"] = some c) :=
  ⟨(C4_deletion_condition staleWorld noFaults ⟨by decide, by decide, by decide⟩
      (by decide) (by decide) ["x"] (by decide)).1,
   (C4_deletion_condition staleWorld noFaults ⟨by decide, by decide, by decide⟩
      (by decide) (by decide) ["a"] (by decide)).2.2⟩

/-- C1 counterexample: in `shadowWorld` (source: one empty directory `d`;
replica: a regular file `d`) one full cycle completes with no error, yet the
replica's file map does not equal the source's: the replica keeps a file `d`
that the source does not have. -/
theorem C1_counterexample :
    (synchronize_folders shadowWorld noFaults).copyErrored = false
    ∧ (synchronize_folders shadowWorld noFaults).removeErrored = false
    ∧ lookupFile (synchronize_folders shadowWorld noFaults).world.rep.files ["d"] = some [1]
    ∧ lookupFile shadowWorld.src.files ["d"] = none := by
  decide

/-- C1 amended: after one cycle over well-formed trees that completes without
error, every relative path that exists as a file under source exists under
replica with identical content — unconditionally; and provided additionally
that no replica file's relative path names a directory of the source tree,
no replica file survives outside the source's file map either, so the
replica's (relativePath → content) map equals the source's exactly. -/
theorem C1_convergence (w : World) (f : Faults)
    (hWFs : WF w.src) (hWFr : WF w.rep)
    (herrC : (copy_files w f).errored = false)
    (herrR : (remove_files (copy_files w f).world f).errored = false) :
    (∀ p c, lookupFile w.src.files p = some c →
      lookupFile (synchronize_folders w f).world.rep.files p = some c)
    ∧ ((∀ p ∈ w.rep.files.map (fun e => e.1), p ∉ w.src.dirs) →
      ∀ p, lookupFile (synchronize_folders w f).world.rep.files p
        = lookupFile w.src.files p) := by
  have hsrcAll : ∀ pc ∈ walkFiles w.src, lookupFile w.src.files pc.1 = some pc.2 :=
    fun pc hpc => lookupFile_of_mem hWFs.nodup hpc
  have hndsrc : ((walkFiles w.src).map (fun x => x.1)).Nodup := hWFs.nodup
  have hndrep : ((copy_files w f).world.rep.files.map (fun e => e.1)).Nodup :=
    copyGo_nodup f _ w [] hWFr.nodup
  have hsrcc : (copy_files w f).world.src = w.src := copyGo_src f _ w []
  have hincl : ∀ p c, lookupFile w.src.files p = some c →
      lookupFile (synchronize_folders w f).world.rep.files p = some c := by
    intro p c hsp
    have hmem : (p, c) ∈ w.src.files := lookupFile_mem hsp
    have hc : lookupFile (copy_files w f).world.rep.files p = some c :=
      copyGo_ok_lookup f _ w [] hndsrc hsrcAll herrC (p, c) hmem
    have hex : path_exists (copy_files w f).world Root.src p = true := by
      rw [path_exists_src_congr hsrcc]
      simp [path_exists, World.getFS, hsp]
    have hk := removeGo_keep f
      ((copy_files w f).world.rep.files.map (fun e : RPath × Content => e.1))
      (copy_files w f).world [] p hex
    exact hk.trans hc
  refine ⟨hincl, ?_⟩
  intro hshadow p
  cases hsp : lookupFile w.src.files p with
  | some c => exact hincl p c hsp
  | none =>
    by_cases hrp : (lookupFile (copy_files w f).world.rep.files p).isSome = true
    · have hin : p ∈ (copy_files w f).world.rep.files.map (fun e => e.1) :=
        (lookupFile_isSome _ _).mp hrp
      have hp0 : (lookupFile w.rep.files p).isSome = true := by
        have hnl : p ∉ (walkFiles w.src).map (fun x => x.1) := by
          intro hmm
          have := (lookupFile_isSome w.src.files p).mpr hmm
          rw [hsp] at this
          cases this
        rw [← copyGo_untouched f (walkFiles w.src) w [] p hnl]
        exact hrp
      have hnd : p ∉ w.src.dirs := hshadow p ((lookupFile_isSome _ _).mp hp0)
      have hex : path_exists (copy_files w f).world Root.src p = false := by
        rw [path_exists_src_congr hsrcc]
        simp [path_exists, World.getFS, hsp, hnd]
      exact removeGo_ok_removed f _ (copy_files w f).world [] hndrep herrR p hin hex
    · have hnone : lookupFile (copy_files w f).world.rep.files p = none :=
        Option.not_isSome_iff_eq_none.mp (by simpa using hrp)
      exact removeGo_never_add f _ (copy_files w f).world [] p hnone

/-- Witness for C1 (amended): in the mixed scenario the source file `sub/b`
lands in the replica with its content (via the unconditional inclusion), and
the converged replica agrees with the source on the deleted stale path. -/
theorem C1_convergence_witness :
    lookupFile (synchronize_folders mixedWorld noFaults).world.rep.files ["sub", "b"]
      = some [2]
    ∧ lookupFile (synchronize_folders mixedWorld noFaults).world.rep.files ["old"]
      = lookupFile mixedWorld.src.files ["old"] :=
  ⟨(C1_convergence mixedWorld noFaults ⟨by decide, by decide, by decide⟩
      ⟨by decide, by decide, by decide⟩ (by decide) (by decide)).1 ["sub", "b"] [2] (by decide),
   (C1_convergence mixedWorld noFaults ⟨by decide, by decide, by decide⟩
      ⟨by decide, by decide, by decide⟩ (by decide) (by decide)).2 (by decide) ["old"]⟩

/-- C5: idempotence: after a cycle over well-formed trees completes without
error and the source is unchanged, the next cycle performs zero copy and zero
delete actions — it emits no event at all and leaves the world untouched. -/
theorem C5_idempotence (w : World) (f : Faults)
    (hWFs : WF w.src) (hWFr : WF w.rep)
    (herrC : (copy_files w f).errored = false)
    (herrR : (remove_files (copy_files w f).world f).errored = false) :
    synchronize_folders (synchronize_folders w f).world f
      = ⟨(synchronize_folders w f).world, [], false, false⟩ := by
  have hsrcAll : ∀ pc ∈ walkFiles w.src, lookupFile w.src.files pc.1 = some pc.2 :=
    fun pc hpc => lookupFile_of_mem hWFs.nodup hpc
  have hndsrc : ((walkFiles w.src).map (fun x => x.1)).Nodup := hWFs.nodup
  have hndrep : ((copy_files w f).world.rep.files.map (fun e => e.1)).Nodup :=
    copyGo_nodup f _ w [] hWFr.nodup
  have hsrcc : (copy_files w f).world.src = w.src := copyGo_src f _ w []
  have hsrc1 : (synchronize_folders w f).world.src = w.src := by
    show (removeGo f _ _ _).world.src = w.src
    rw [removeGo_src]
    exact hsrcc
  have hdirs1 : (synchronize_folders w f).world.rep.dirs
      = (copy_files w f).world.rep.dirs := by
    show (removeGo f _ _ _).world.rep.dirs = _
    rw [removeGo_dirs]
  have hnoopC : copy_files (synchronize_folders w f).world f
      = ⟨(synchronize_folders w f).world, [], false⟩ := by
    apply copyGo_noop
    intro pc hpc
    have hpc0 : pc ∈ w.src.files := by
      have : walkFiles (synchronize_folders w f).world.src = w.src.files := by
        rw [walkFiles, hsrc1]
      rw [this] at hpc
      exact hpc
    have hlks : lookupFile w.src.files pc.1 = some pc.2 :=
      lookupFile_of_mem hWFs.nodup hpc0
    have hex : path_exists (copy_files w f).world Root.src pc.1 = true := by
      rw [path_exists_src_congr hsrcc]
      simp [path_exists, World.getFS, hlks]
    refine ⟨?_, ?_, ?_⟩
    · rw [hsrc1]
      exact hlks
    · have hk := removeGo_keep f
        ((copy_files w f).world.rep.files.map (fun e : RPath × Content => e.1))
        (copy_files w f).world [] pc.1 hex
      have hc : lookupFile (copy_files w f).world.rep.files pc.1 = some pc.2 :=
        copyGo_ok_lookup f _ w [] hndsrc hsrcAll herrC pc hpc0
      exact hk.trans hc
    · intro q hq
      constructor
      · have h2 := copyGo_ok_parents_nofile f (walkFiles w.src) w [] hsrcAll
          hWFs.noNest herrC pc hpc0 q hq
        exact removeGo_never_add f _ (copy_files w f).world [] q h2
      · have h3 := copyGo_ok_parents_dirs f (walkFiles w.src) w [] herrC pc hpc0 q hq
        rw [hdirs1]
        exact h3
  have hnoopR : remove_files (synchronize_folders w f).world f
      = ⟨(synchronize_folders w f).world, [], false⟩ := by
    apply removeGo_noop
    intro p hp
    have hps : (lookupFile (synchronize_folders w f).world.rep.files p).isSome = true := by
      rw [lookupFile_isSome]
      exact hp
    have hin : p ∈ (copy_files w f).world.rep.files.map (fun e => e.1) := by
      by_contra hnot
      have hnone : lookupFile (copy_files w f).world.rep.files p = none :=
        (lookupFile_eq_none _ _).mpr hnot
      have h4 : lookupFile (synchronize_folders w f).world.rep.files p = none :=
        removeGo_never_add f _ (copy_files w f).world [] p hnone
      rw [h4] at hps
      cases hps
    by_cases hex : path_exists (copy_files w f).world Root.src p = true
    · rw [path_exists_src_congr (show (synchronize_folders w f).world.src
          = (copy_files w f).world.src from hsrc1.trans hsrcc.symm)]
      exact hex
    · have hex' : path_exists (copy_files w f).world Root.src p = false := by
        simpa using hex
      have h5 : lookupFile (synchronize_folders w f).world.rep.files p = none :=
        removeGo_ok_removed f _ (copy_files w f).world [] hndrep herrR p hin hex'
      rw [h5] at hps
      cases hps
  have hassm : synchronize_folders (synchronize_folders w f).world f
      = ⟨(remove_files (copy_files (synchronize_folders w f).world f).world f).world,
         (copy_files (synchronize_folders w f).world f).events
           ++ (remove_files (copy_files (synchronize_folders w f).world f).world f).events,
         (copy_files (synchronize_folders w f).world f).errored,
         (remove_files (copy_files (synchronize_folders w f).world f).world f).errored⟩ := rfl
  rw [hassm]
  simp only [hnoopC, hnoopR, List.nil_append]

/-- Witness for C5: after the mixed scenario's first cycle, the second cycle
is a complete no-op. -/
theorem C5_idempotence_witness :
    synchronize_folders (synchronize_folders mixedWorld noFaults).world noFaults
      = ⟨(synchronize_folders mixedWorld noFaults).world, [], false, false⟩ :=
  C5_idempotence mixedWorld noFaults ⟨by decide, by decide, by decide⟩
    ⟨by decide, by decide, by decide⟩ (by decide) (by decide)

/-- C2 counterexample: source holds `a` and `b`, the replica is empty, and
copying `a` fails with `IOError`.  The claim promises the cycle continues
with the subsequent copy of `b`; in fact the copy phase's broad
`try/except` aborts the whole iteration: `b` is not copied and gets no
`Copied` event although it met the copy condition. -/
theorem C2_counterexample :
    (copy_files twoFileWorld faultCopyA).errored = true
    ∧ lookupFile twoFileWorld.src.files ["b"] = some [2]
    ∧ lookupFile twoFileWorld.rep.files ["b"] = none
    ∧ lookupFile (synchronize_folders twoFileWorld faultCopyA).world.rep.files ["b"] = none
    ∧ countEv (Event.copied ["b"]) (synchronize_folders twoFileWorld faultCopyA).events = 0 := by
  decide

/-- C2 amended: when copying or deleting one file fails with an `IOError`,
the error is reported (console and log, an error event) and the remainder of
*that phase's* iteration is skipped — the error is the phase's last event;
the failure does not abort the rest of the cycle's *other* phase: the delete
phase still runs on the post-copy state and its events follow the copy
phase's. -/
theorem C2_phase_abort_reported (w : World) (f : Faults) :
    ((copy_files w f).errored = true →
      (copy_files w f).events.getLast? = some Event.errorEv)
    ∧ ((remove_files (copy_files w f).world f).errored = true →
      (remove_files (copy_files w f).world f).events.getLast? = some Event.errorEv)
    ∧ (synchronize_folders w f).events
        = (copy_files w f).events ++ (remove_files (copy_files w f).world f).events
    ∧ (synchronize_folders w f).world = (remove_files (copy_files w f).world f).world := by
  refine ⟨?_, ?_, rfl, rfl⟩
  · intro h
    obtain ⟨t, ht⟩ := copyGo_err_last f _ w [] h
    have ht' : (copy_files w f).events = t ++ [Event.errorEv] := ht
    rw [ht']
    exact List.getLast?_concat t
  · intro h
    obtain ⟨t, ht⟩ := removeGo_err_last f _ _ [] h
    have ht' : (remove_files (copy_files w f).world f).events = t ++ [Event.errorEv] := ht
    rw [ht']
    exact List.getLast?_concat t

/-- Witness for C2 (amended): a copy fault on `a` and, in a second scenario,
a delete fault on `x`, each end their phase with the reported error event. -/
theorem C2_phase_abort_reported_witness :
    (copy_files twoFileWorld faultCopyA).events.getLast? = some Event.errorEv
    ∧ (remove_files (copy_files staleWorld faultRemoveX).world faultRemoveX).events.getLast?
        = some Event.errorEv :=
  ⟨(C2_phase_abort_reported twoFileWorld faultCopyA).1 (by decide),
   (C2_phase_abort_reported staleWorld faultRemoveX).2.1 (by decide)⟩

/-- C9 counterexample: a startup state whose source path exists but is not a
directory passes the program's check (`os.path.exists` only) and the loop is
entered, contradicting the claim that a non-directory root exits before the
loop. -/
theorem C9_counterexample :
    (main_startup ⟨true, false, true, true⟩).enteredLoop = true
    ∧ (Startup.mk true false true true).sourceIsDir = false := by
  decide

/-- C9 amended: at startup each of the source and replica paths must merely
*exist* (directory-ness is not checked); if either does not exist, a
diagnostic is reported and the process returns without entering the
synchronization loop. -/
theorem C9_startup_existence_check (s : Startup) :
    (main_startup s).enteredLoop = (s.sourceExists && s.replicaExists)
    ∧ ((main_startup s).enteredLoop = false → (main_startup s).diagnostics ≠ []) := by
  obtain ⟨se, sd, re, rd⟩ := s
  cases se <;> cases re <;> simp [main_startup]

/-- Witness for C9 (amended): with a missing source the loop is not entered
and a diagnostic is present. -/
theorem C9_startup_existence_check_witness :
    (main_startup ⟨false, false, true, true⟩).enteredLoop = (false && true)
    ∧ (main_startup ⟨false, false, true, true⟩).diagnostics ≠ [] :=
  ⟨(C9_startup_existence_check ⟨false, false, true, true⟩).1,
   (C9_startup_existence_check ⟨false, false, true, true⟩).2 (by decide)⟩
